import Mathlib

/-!
# gregoryv/log: synchronized logger and empty-message filter

A shallow embedding of `src/log.go` (package `log`) and `src/package.go`
(package `fox`).  The two files define the same `SyncLog` and `FilterEmpty`
types; they differ only in how the fields are named (`sync.Mutex`/`io.Writer`
embedded in `log.go`, private fields `mu`/`w` in `package.go`), so one
embedding serves both.

Go strings are byte sequences; `fmt.Sprint`, `fmt.Fprint` and `io.Writer` are
modelled from the Go standard library as far as the two methods use them.
-/

namespace Log

/-! ## Bytes and values -/

/-- Go `byte`. -/
abbrev Byte := UInt8

/-- Go `string` / `[]byte`: a finite sequence of bytes. -/
abbrev Bytes := List Byte

/-- Package variable `var newline byte = '\n'` (`log.go:49`, `package.go:50`). -/
def newline : Byte := 10

/-- The space that `fmt` puts between two operands. -/
def space : Byte := 32

/-- The text `<nil>` that `fmt` prints for a nil operand. -/
def nilAngleString : Bytes := [60, 110, 105, 108, 62]

/-- A Go `interface{}` operand, as far as `== nil` and `fmt.Sprint` observe it.

* `nil`    : the nil interface value (also what a nil `error` variable converts to);
* `str s`  : a value of type `string`;
* `int n`  : a value of type `int`;
* `err m`  : a non-nil `error` of non-string kind (such as `*errors.errorString`)
             whose `Error()` method returns `m`;
* `other k t` : any other non-nil value; `k` tells whether its reflect kind is
             `String`, and `t` is the text `fmt` prints for it under verb `v`
             (covers typed nil pointers, Stringers, named string types, ...). -/
inductive Value where
  | nil : Value
  | str (s : Bytes) : Value
  | int (n : Int) : Value
  | err (msg : Bytes) : Value
  | other (kindString : Bool) (text : Bytes) : Value
  deriving DecidableEq

/-! ## Package fmt -/

/-- Decimal digits of a natural number, most significant first
(`fmt.fmtInteger` in base 10, without sign, width or precision). -/
def fmtDigits : Nat → Nat → Bytes → Bytes
  | 0, _, acc => acc
  | fuel + 1, n, acc =>
    if n < 10 then UInt8.ofNat (48 + n) :: acc
    else fmtDigits fuel (n / 10) (UInt8.ofNat (48 + n % 10) :: acc)

/-- The text of an `int` under verb `v`: an optional minus sign and the decimal digits. -/
def fmtInteger (n : Int) : Bytes :=
  if n < 0 then 45 :: fmtDigits (n.natAbs + 1) n.natAbs []
  else fmtDigits (n.natAbs + 1) n.natAbs []

/-- What `(*pp).printArg(arg, 'v')` writes to the print buffer. -/
def printArg : Value → Bytes
  | .nil => nilAngleString
  | .str s => s
  | .int n => fmtInteger n
  | .err msg => msg
  | .other _ text => text

/-- The test `arg != nil && reflect.TypeOf(arg).Kind() == reflect.String`
of `(*pp).doPrint`. -/
def isString : Value → Bool
  | .nil => false
  | .str _ => true
  | .int _ => false
  | .err _ => false
  | .other k _ => k

/-- The loop of `(*pp).doPrint`: `buf` is the print buffer, `prevString` and
`argNum` are the loop variables.  A space is added between two operands when
neither is a string. -/
def doPrintLoop (buf : Bytes) (prevString : Bool) (argNum : Nat) : List Value → Bytes
  | [] => buf
  | arg :: rest =>
    let isStr := isString arg
    let buf1 := if argNum > 0 && !isStr && !prevString then buf ++ [space] else buf
    doPrintLoop (buf1 ++ printArg arg) isStr (argNum + 1) rest

/-- The print buffer after `(*pp).doPrint(a)` on a fresh printer. -/
def doPrint (a : List Value) : Bytes := doPrintLoop [] false 0 a

/-- Go `fmt.Sprint(a...)`: the content of the print buffer as a string. -/
def Sprint (a : List Value) : Bytes := doPrint a

/-! ## io.Writer -/

/-- The `(n int, err error)` pair a `Write` call returns; `err` tells whether
the error is non-nil. -/
structure WriteResult where
  n : Nat
  err : Bool
  deriving DecidableEq

/-- An `io.Writer`, as a transformer of the state `σ` of the environment its
`Write` method acts on. -/
abbrev IoWriter (σ : Type) := σ → Bytes → σ × WriteResult

/-- Go `fmt.Fprint(w, a...)`: format the operands, then make one `w.Write`
call with the whole buffer (also when the buffer is empty). -/
def Fprint {σ : Type} (w : IoWriter σ) (s : σ) (a : List Value) : σ × WriteResult :=
  w s (doPrint a)

/-- An in-memory sink (`bytes.Buffer`): `Write` appends and never fails. -/
def buffer : IoWriter Bytes := fun s p => (s ++ p, ⟨p.length, false⟩)

/-! ## SyncLog and FilterEmpty -/

/-- The struct `SyncLog` (`log.go:32`, `package.go:33`).  Only the writer field is kept: in a
sequential run the mutex is free when `Log` starts and free again when it
returns; contention on the mutex is modelled by `step` below. -/
structure SyncLog (σ : Type) where
  Writer : IoWriter σ

/-- Constructor `NewSyncLog(w)`. -/
def NewSyncLog {σ : Type} (w : IoWriter σ) : SyncLog σ := ⟨w⟩

/-- The condition `len(out) == 0 || out[len(out)-1] != newline` of `SyncLog.Log`. -/
def needsNewline (out : Bytes) : Bool :=
  out.length == 0 || out[out.length - 1]? != some newline

/-- Method `(*SyncLog).Log(v...)` (`log.go:39`, `package.go:40`).  `out` is passed to `Fprint`
as one string operand; both write results are dropped. -/
def SyncLog.Log {σ : Type} (l : SyncLog σ) (s : σ) (v : List Value) : σ :=
  let out := Sprint v
  let s1 := (Fprint l.Writer s [Value.str out]).1
  if needsNewline out then (l.Writer s1 [newline]).1 else s1

/-- Method `(*SyncLog).SetOutput(w)`. -/
def SyncLog.SetOutput {σ : Type} (l : SyncLog σ) (w : IoWriter σ) : SyncLog σ :=
  { l with Writer := w }

/-- The struct `FilterEmpty`: a reference to the wrapped `SyncLog`. -/
structure FilterEmpty (σ : Type) where
  SyncLog : SyncLog σ

/-- Method `(*SyncLog).FilterEmpty()`. -/
def SyncLog.FilterEmpty {σ : Type} (l : SyncLog σ) : FilterEmpty σ := ⟨l⟩

/-- Method `(*FilterEmpty).Log(v...)` (`log.go:61`, `package.go:64`). -/
def FilterEmpty.Log {σ : Type} (l : FilterEmpty σ) (s : σ) (v : List Value) : σ :=
  if v.length = 0 then s
  else if v.length = 1 ∧ v[0]? = some Value.nil then s
  else
    let out := Sprint v
    if out = [] then s else l.SyncLog.Log s [Value.str out]

/-! ## Sinks used to observe the calls -/

/-- A sink that records every `Write` attempt it receives.  `fails log p`
tells whether the attempt to write `p` after the attempts `log` reports an
error (and then writes nothing). -/
def recorder (fails : List Bytes → Bytes → Bool) : IoWriter (List Bytes) :=
  fun log p => (log ++ [p], if fails log p then ⟨0, true⟩ else ⟨p.length, false⟩)

/-- The sinks of the environment, by reference: each is an in-memory buffer. -/
abbrev Sinks := Nat → Bytes

/-- The `io.Writer` that appends to the buffer with reference `r`. -/
def bufferAt (r : Nat) : IoWriter Sinks :=
  fun h p => (Function.update h r (h r ++ p), ⟨p.length, false⟩)

/-- One `SyncLog` object together with the sinks of its environment.  A
`FilterEmpty` holds a pointer to the `SyncLog`, so it always sees the current
`Writer` field. -/
structure World where
  log : SyncLog Sinks
  sinks : Sinks

/-- A `Log` call on the logger: made directly, or through its `FilterEmpty`. -/
inductive Call where
  | direct (v : List Value) : Call
  | filtered (v : List Value) : Call

/-- Run one `Log` call on logger `l` in environment `s`. -/
def Call.exec {σ : Type} (l : SyncLog σ) (s : σ) : Call → σ
  | .direct v => l.Log s v
  | .filtered v => l.FilterEmpty.Log s v

/-- The bytes a call produces on its own, on an empty buffer. -/
def Call.output (c : Call) : Bytes := c.exec (NewSyncLog buffer) []

/-- Statement `l.SetOutput(newSink)` in a world. -/
def World.SetOutput (w : World) (r : Nat) : World :=
  { w with log := w.log.SetOutput (bufferAt r) }

/-- One `Log` call in a world. -/
def World.call (w : World) (c : Call) : World :=
  { w with sinks := c.exec w.log w.sinks }

/-! ## Concurrent callers

An interleaving semantics of `SyncLog.Log`: every caller executes the
statements of the method one at a time, and a schedule says which caller moves
next.  The `sync.Mutex` is a boolean; `l.Lock()` can only be executed while it
is free, and `l.Unlock()` frees it.  All accesses to the sink happen between the
two, so the granularity of the other statements does not matter. -/

/-- Program points of a `SyncLog.Log` call: the statement it executes next. -/
inductive PC where
  /-- About to run `out := fmt.Sprint(v...)`. -/
  | sprint : PC
  /-- About to run `l.Lock()`. -/
  | lock : PC
  /-- About to run `fmt.Fprint(l, out)`. -/
  | fprint : PC
  /-- About to run `if ... { l.Write([]byte{newline}) }`. -/
  | terminate : PC
  /-- About to run `l.Unlock()`. -/
  | unlock : PC
  /-- Returned. -/
  | done : PC
  deriving DecidableEq

/-- One caller inside `SyncLog.Log(v...)`: its arguments, its program point and
its local variable `out`. -/
structure Caller where
  v : List Value
  pc : PC
  out : Bytes
  deriving DecidableEq

/-- The shared state of concurrent callers of one `SyncLog`: the mutex, the
environment of the sink, and the callers. -/
structure Conc (σ : Type) where
  mutex : Bool
  sink : σ
  callers : List Caller
  deriving DecidableEq

/-- One statement of `SyncLog.Log`, executed by caller `c`.  `l.Lock()` can
only be executed while the mutex is free; a caller that has returned takes no
step. -/
def stepCaller {σ : Type} (l : SyncLog σ) (mutex : Bool) (s : σ) (c : Caller) :
    Option (Bool × σ × Caller) :=
  match c.pc with
  | .sprint => some (mutex, s, { c with out := Sprint c.v, pc := .lock })
  | .lock => if mutex then none else some (true, s, { c with pc := .fprint })
  | .fprint => some (mutex, (Fprint l.Writer s [Value.str c.out]).1, { c with pc := .terminate })
  | .terminate =>
    some (mutex, if needsNewline c.out then (l.Writer s [newline]).1 else s,
      { c with pc := .unlock })
  | .unlock => some (false, s, { c with pc := .done })
  | .done => none

/-- The scheduler lets caller number `i` execute its next statement. -/
def step {σ : Type} (l : SyncLog σ) (st : Conc σ) (i : Nat) : Option (Conc σ) :=
  match st.callers[i]? with
  | none => none
  | some c =>
    match stepCaller l st.mutex st.sink c with
    | none => none
    | some (m, s, c1) => some ⟨m, s, st.callers.set i c1⟩

/-- Run a schedule: the list of callers that execute a statement, in order. -/
def run {σ : Type} (l : SyncLog σ) (st : Conc σ) : List Nat → Option (Conc σ)
  | [] => some st
  | i :: sched => (step l st i).bind fun st1 => run l st1 sched

/-- The state in which the callers with arguments `vs` are about to start, the
mutex is free and the sink is `s`. -/
def Conc.init {σ : Type} (s : σ) (vs : List (List Value)) : Conc σ :=
  ⟨false, s, vs.map fun v => ⟨v, .sprint, []⟩⟩

/-- Every caller has returned. -/
def Conc.finished {σ : Type} (st : Conc σ) : Bool :=
  st.callers.all fun c => c.pc == .done

/-- The schedule that lets the callers `i, i+1, ..., i+n-1` run one after another,
five statements each. -/
def sequentialSchedule : Nat → Nat → List Nat
  | _, 0 => []
  | i, n + 1 => [i, i, i, i, i] ++ sequentialSchedule (i + 1) n

/-- The caller holds the mutex: it is between `l.Lock()` and `l.Unlock()`. -/
def Caller.holds (c : Caller) : Bool :=
  c.pc == .fprint || c.pc == .terminate || c.pc == .unlock

/-- The caller has made all its writes. -/
def Caller.wrote (c : Caller) : Bool :=
  c.pc == .unlock || c.pc == .done

/-- The text a caller has written while its terminator is still to be decided. -/
def Caller.pending (c : Caller) : Bytes :=
  if c.pc = .terminate then c.out else []

/-- How many statements of `SyncLog.Log` a caller at this program point has executed. -/
def PC.rank : PC → Nat
  | .sprint => 0
  | .lock => 1
  | .fprint => 2
  | .terminate => 3
  | .unlock => 4
  | .done => 5

/-- The number of statements the callers have executed so far. -/
def Conc.progress {σ : Type} (st : Conc σ) : Nat :=
  (st.callers.map fun c => c.pc.rank).sum

/-- The complete output of one call on its own: what `SyncLog.Log(v...)` puts
in an empty buffer. -/
def output (v : List Value) : Bytes := (NewSyncLog buffer).Log [] v

/-- The invariant of the concurrent runs that start with sink content `s0`:
every caller past its first statement holds `Sprint v` in `out`; the number of
callers between `Lock` and `Unlock` is one when the mutex is taken and zero when
it is free; and the sink holds `s0`, then the complete outputs of the callers
that made all their writes, in some order, then the text of the caller whose
terminator is still to come. -/
def Inv (s0 : Bytes) (st : Conc Bytes) : Prop :=
  (∀ c ∈ st.callers, c.pc = .sprint ∨ c.out = Sprint c.v) ∧
  st.callers.countP Caller.holds = (if st.mutex then 1 else 0) ∧
  ∃ order : List (List Value),
    order.Perm ((st.callers.filter Caller.wrote).map Caller.v) ∧
    st.sink = s0 ++ (order.map output).flatten ++ (st.callers.map Caller.pending).flatten

/-- The bytes a caller that holds the mutex has written so far. -/
def Caller.written (c : Caller) : Bytes :=
  match c.pc with
  | .terminate => c.out
  | .unlock => output c.v
  | _ => []

/-- The arguments of caller `i` if its next statement is `l.Lock()`. -/
def lockStep {σ : Type} (st : Conc σ) (i : Nat) : List (List Value) :=
  match st.callers[i]? with
  | some c => if c.pc = .lock then [c.v] else []
  | none => []

/-- The calls of a run, by their arguments, in the order in which they acquire
the mutex. -/
def lockOrder {σ : Type} (l : SyncLog σ) (st : Conc σ) : List Nat → List (List Value)
  | [] => []
  | i :: sched =>
    match step l st i with
    | none => []
    | some st1 => lockStep st i ++ lockOrder l st1 sched

/-- The ordering invariant: `acq` lists the calls that acquired the mutex so
far, in order; the last of them is the caller that holds the mutex, if any; the
sink holds `s0`, the complete outputs of the earlier ones in that order, and
what the holder has written so far. -/
def Ord (s0 : Bytes) (acq : List (List Value)) (st : Conc Bytes) : Prop :=
  ∃ acq0 : List (List Value),
    acq = acq0 ++ (st.callers.filter Caller.holds).map Caller.v ∧
    st.sink = s0 ++ (acq0.map output).flatten ++ (st.callers.map Caller.written).flatten

/-! ## The separator rule, as a specification of `Sprint` -/

/-- The separator between two adjacent operands: one space when neither is a
string, nothing otherwise. -/
def separator (a b : Value) : Bytes :=
  if !isString a && !isString b then [space] else []

/-- The rendered text, spelled out: the operands in order, each in its default
form, with the separator between adjacent operands. -/
def renderSpec : List Value → Bytes
  | [] => []
  | [a] => printArg a
  | a :: b :: rest => printArg a ++ separator a b ++ renderSpec (b :: rest)

/-- The bytes a `SyncLog.Log(v...)` call appends to a buffer that held `s`. -/
def appended (s : Bytes) (v : List Value) : Bytes :=
  ((NewSyncLog buffer).Log s v).drop s.length

/-- The byte before the last one, when there is one. -/
def beforeLast (a : Bytes) : Option Byte := a.dropLast.getLast?

/-- The property "ends with exactly one line terminator" of C4: the bytes are
non-empty, the last byte is a newline, and the byte before it is not. -/
def endsWithExactlyOneTerminator (a : Bytes) : Bool :=
  a != [] && a.getLast? == some newline && beforeLast a != some newline

/-! ## Basic facts about the embedding -/

theorem doPrint_str (s : Bytes) : doPrint [Value.str s] = s := by
  simp [doPrint, doPrintLoop, isString, printArg]

theorem Sprint_str (s : Bytes) : Sprint [Value.str s] = s := doPrint_str s

theorem needsNewline_iff (out : Bytes) :
    needsNewline out = true ↔ (out = [] ∨ out.getLast? ≠ some newline) := by
  unfold needsNewline
  rw [List.getLast?_eq_getElem?]
  cases out <;> simp

theorem needsNewline_false_iff (out : Bytes) :
    needsNewline out = false ↔ out.getLast? = some newline := by
  rw [← Bool.not_eq_true, needsNewline_iff]
  constructor
  · intro h
    by_contra h1
    exact h (Or.inr h1)
  · rintro h (h1 | h1)
    · simp [h1] at h
    · exact h1 h

/-- The text that follows the rendered message in the sink. -/
theorem log_buffer (s : Bytes) (v : List Value) :
    (NewSyncLog buffer).Log s v =
      s ++ Sprint v ++ (if needsNewline (Sprint v) then [newline] else []) := by
  unfold SyncLog.Log
  simp only [Fprint, doPrint_str, NewSyncLog, buffer]
  split <;> simp

/-! ## C1 -/

/-- C1: for every value sequence `V` and every sink content `s`, one call
`SyncLog.Log(V)` leaves the sink holding `s`, then `render(V)`, then one newline
byte exactly when `render(V)` is empty or does not end with a newline byte, and
nothing else. -/
theorem C1_log_appends_render_and_terminator (V : List Value) (s : Bytes) :
    (NewSyncLog buffer).Log s V =
      s ++ Sprint V ++
        (if Sprint V = [] ∨ (Sprint V).getLast? ≠ some newline then [newline] else []) := by
  rw [log_buffer]
  by_cases h : needsNewline (Sprint V) = true
  · rw [if_pos h, if_pos ((needsNewline_iff _).1 h)]
  · rw [if_neg h, if_neg (fun h1 => h ((needsNewline_iff _).2 h1))]

/-! ## C2, C3 -/

theorem log_str_Sprint {σ : Type} (l : SyncLog σ) (s : σ) (v : List Value) :
    l.Log s [Value.str (Sprint v)] = l.Log s v := by
  unfold SyncLog.Log
  rw [Sprint_str]

theorem filterLog_eq {σ : Type} (l : SyncLog σ) (s : σ) (v : List Value) :
    l.FilterEmpty.Log s v =
      if v.length = 0 ∨ v = [Value.nil] ∨ Sprint v = [] then s else l.Log s v := by
  unfold FilterEmpty.Log SyncLog.FilterEmpty
  match v with
  | [] => simp
  | [a] =>
    by_cases ha : a = Value.nil
    · simp [ha]
    · by_cases hs : Sprint [a] = []
      · simp [ha, hs]
      · simp [ha, hs, log_str_Sprint]
  | a :: b :: rest =>
    by_cases hs : Sprint (a :: b :: rest) = []
    · simp [hs]
    · simp [hs, log_str_Sprint]

theorem log_recorder (fails : List Bytes → Bytes → Bool) (log : List Bytes)
    (v : List Value) :
    (NewSyncLog (recorder fails)).Log log v =
      log ++ [Sprint v] ++ (if needsNewline (Sprint v) then [[newline]] else []) := by
  unfold SyncLog.Log
  simp only [Fprint, doPrint_str, NewSyncLog, recorder]
  split <;> simp

theorem log_buffer_ne (s : Bytes) (v : List Value) :
    (NewSyncLog buffer).Log s v ≠ s := by
  rw [log_buffer]
  intro h
  have h1 := congrArg List.length h
  by_cases hn : needsNewline (Sprint v) = true
  · simp [hn] at h1
  · have h2 : (Sprint v).getLast? = some newline :=
      (needsNewline_false_iff _).1 (by simpa using hn)
    simp [hn] at h1
    simp [h1] at h2

/-- C2: `FilterEmpty.Log(V)` leaves the sink unchanged, and makes no write at
all, if and only if `V` has zero elements, or is the single nil value, or
renders to the empty string; so `Log()`, `Log(nil)` and `Log("")` write
nothing, and two or more values are suppressed only when their render is empty. -/
theorem C2_filter_suppresses_iff (V : List Value) (s : Bytes) :
    ((NewSyncLog buffer).FilterEmpty.Log s V = s ↔
        (V.length = 0 ∨ V = [Value.nil] ∨ Sprint V = [])) ∧
    (∀ (fails : List Bytes → Bytes → Bool) (log : List Bytes),
        (NewSyncLog (recorder fails)).FilterEmpty.Log log V = log ↔
          (V.length = 0 ∨ V = [Value.nil] ∨ Sprint V = [])) ∧
    (NewSyncLog buffer).FilterEmpty.Log s [] = s ∧
    (NewSyncLog buffer).FilterEmpty.Log s [Value.nil] = s ∧
    (NewSyncLog buffer).FilterEmpty.Log s [Value.str []] = s ∧
    (2 ≤ V.length → ((NewSyncLog buffer).FilterEmpty.Log s V = s ↔ Sprint V = [])) := by
  have hbuf : (NewSyncLog buffer).FilterEmpty.Log s V = s ↔
      (V.length = 0 ∨ V = [Value.nil] ∨ Sprint V = []) := by
    rw [filterLog_eq]
    by_cases h : V.length = 0 ∨ V = [Value.nil] ∨ Sprint V = []
    · rw [if_pos h]
      exact ⟨fun _ => h, fun _ => rfl⟩
    · rw [if_neg h]
      exact ⟨fun h1 => absurd h1 (log_buffer_ne s V), fun h1 => absurd h1 h⟩
  refine ⟨hbuf, ?_, ?_, ?_, ?_, ?_⟩
  · intro fails log
    rw [filterLog_eq]
    by_cases h : V.length = 0 ∨ V = [Value.nil] ∨ Sprint V = []
    · rw [if_pos h]
      exact ⟨fun _ => h, fun _ => rfl⟩
    · rw [if_neg h, log_recorder]
      refine ⟨fun h1 => ?_, fun h1 => absurd h1 h⟩
      have h2 := congrArg List.length h1
      simp at h2
  · rw [filterLog_eq]; simp
  · rw [filterLog_eq]; simp
  · rw [filterLog_eq]; simp [Sprint_str]
  · intro h2
    rw [hbuf]
    constructor
    · rintro (h | h | h)
      · omega
      · rw [h] at h2; simp at h2
      · exact h
    · intro h; exact Or.inr (Or.inr h)

/-- C3: when `FilterEmpty.Log(V)` does not suppress, it changes the sink
exactly as `SyncLog.Log(V)` does: it appends `render(V)`, followed by a
newline iff `render(V)` does not end with one; the rendered text forwarded
as a single string renders to itself. -/
theorem C3_filter_forwards_like_log (V : List Value) (s : Bytes)
    (h : ¬ (V.length = 0 ∨ V = [Value.nil] ∨ Sprint V = [])) :
    (∀ (σ : Type) (l : SyncLog σ) (e : σ), l.FilterEmpty.Log e V = l.Log e V) ∧
    (NewSyncLog buffer).FilterEmpty.Log s V =
      s ++ Sprint V ++ (if (Sprint V).getLast? = some newline then [] else [newline]) ∧
    Sprint [Value.str (Sprint V)] = Sprint V := by
  refine ⟨fun σ l e => ?_, ?_, Sprint_str _⟩
  · rw [filterLog_eq, if_neg h]
  · rw [filterLog_eq, if_neg h, log_buffer]
    by_cases hn : needsNewline (Sprint V) = true
    · have h1 := (needsNewline_iff _).1 hn
      have h2 : (Sprint V).getLast? ≠ some newline := by
        rcases h1 with h1 | h1
        · exact absurd h1 (fun h3 => h (Or.inr (Or.inr h3)))
        · exact h1
      rw [if_pos hn, if_neg h2]
    · have h2 := (needsNewline_false_iff _).1 (by simpa using hn)
      rw [if_neg hn, if_pos h2]

/-- Witness of C3 at `Log("a", "b")` on an empty sink. -/
theorem C3_filter_forwards_like_log_witness :
    (NewSyncLog buffer).FilterEmpty.Log [] [Value.str [97], Value.str [98]] = [97, 98, 10] :=
  (C3_filter_forwards_like_log [Value.str [97], Value.str [98]] [] (by decide)).2.1

/-! ## C10 -/

/-- C10: whatever the sink reports, `SyncLog.Log(V)` makes the same write
attempts: one write of `render(V)` (also when it is empty), then one write of
the newline byte iff `render(V)` is empty or does not end with a newline; a
failed first write does not stop the second, and the effect of `Log` depends
on no write result. -/
theorem C10_write_failures_ignored (V : List Value) (fails : List Bytes → Bytes → Bool)
    (log : List Bytes) :
    (NewSyncLog (recorder fails)).Log log V =
      log ++ [Sprint V] ++
        (if Sprint V = [] ∨ (Sprint V).getLast? ≠ some newline then [[newline]] else []) ∧
    (∀ fails1 : List Bytes → Bytes → Bool,
      (NewSyncLog (recorder fails)).Log log V = (NewSyncLog (recorder fails1)).Log log V) ∧
    ∀ (σ : Type) (w1 w2 : IoWriter σ), (∀ s p, (w1 s p).1 = (w2 s p).1) →
      ∀ s : σ, (NewSyncLog w1).Log s V = (NewSyncLog w2).Log s V := by
  refine ⟨?_, ?_, ?_⟩
  · rw [log_recorder]
    by_cases h : needsNewline (Sprint V) = true
    · rw [if_pos h, if_pos ((needsNewline_iff _).1 h)]
    · rw [if_neg h, if_neg (fun h1 => h ((needsNewline_iff _).2 h1))]
  · intro fails1
    rw [log_recorder, log_recorder]
  · intro σ w1 w2 hw s
    simp only [SyncLog.Log, Fprint, NewSyncLog, hw]

/-- Witness of C10: `Log("a")` on a sink whose every write fails still makes
both write attempts. -/
theorem C10_write_failures_ignored_witness :
    (NewSyncLog (recorder fun _ _ => true)).Log [] [Value.str [97]] = [[97], [10]] :=
  (C10_write_failures_ignored [Value.str [97]] (fun _ _ => true) []).1.trans (by decide)

/-! ## C4 -/

/-- C4: the doc comment of `Log` says it makes sure each message ends with one
new line, but `Log("a\n\n")` appends `a\n\n` unchanged: the appended bytes end
with two newlines, not exactly one. -/
theorem C4_log_keeps_double_newline :
    (NewSyncLog buffer).Log [] [Value.str [97, 10, 10]] = [97, 10, 10] ∧
    appended [] [Value.str [97, 10, 10]] = [97, 10, 10] ∧
    beforeLast (appended [] [Value.str [97, 10, 10]]) = some newline ∧
    endsWithExactlyOneTerminator (appended [] [Value.str [97, 10, 10]]) = false := by
  decide

/-! ## C7 -/

theorem doPrintLoop_eq (l : List Value) (buf : Bytes) (prevString : Bool) (n : Nat) :
    doPrintLoop buf prevString (n + 1) l =
      buf ++ (match l with
        | [] => []
        | a :: _ => if !isString a && !prevString then [space] else []) ++ renderSpec l := by
  induction l generalizing buf prevString n with
  | nil => simp [doPrintLoop, renderSpec]
  | cons a rest ih =>
    simp only [doPrintLoop]
    rw [ih]
    cases rest with
    | nil => cases isString a <;> cases prevString <;> simp [renderSpec]
    | cons b r =>
      simp only [renderSpec, separator]
      cases isString a <;> cases isString b <;> cases prevString <;> simp

theorem Sprint_eq_renderSpec (V : List Value) : Sprint V = renderSpec V := by
  cases V with
  | nil => rfl
  | cons a rest =>
    unfold Sprint doPrint
    simp only [doPrintLoop]
    rw [doPrintLoop_eq]
    cases rest with
    | nil => simp [renderSpec]
    | cons b r =>
      simp only [renderSpec, separator]
      cases isString a <;> cases isString b <;> simp

theorem renderSpec_no_separator (V : List Value)
    (h : V.Chain' fun a b => isString a = true ∨ isString b = true) :
    renderSpec V = (V.map printArg).flatten := by
  induction V with
  | nil => rfl
  | cons a rest ih =>
    cases rest with
    | nil => simp [renderSpec]
    | cons b r =>
      rw [List.chain'_cons] at h
      rw [renderSpec, ih h.2]
      have hs : separator a b = [] := by
        unfold separator
        rcases h.1 with h1 | h1 <;> simp [h1]
      simp [hs]

/-- C7 as stated fails: `fmt.Sprint(1, 2)` is `1 2`, with a space between the
two values, not `12`. -/
theorem C7_counterexample_space_between_ints :
    Sprint [Value.int 1, Value.int 2] = [49, 32, 50] ∧
    Sprint [Value.int 1, Value.int 2] ≠
      ([Value.int 1, Value.int 2].map printArg).flatten := by
  decide

/-- C7, amended: the rendered text is the concatenation, in order, of each
value's default string form, with one space between two adjacent values exactly
when neither of them is a string; when of any two adjacent values at least one
is a string nothing is inserted, and the filter's `Log("a", "b")` puts `ab\n`
in the sink. -/
theorem C7_render_is_concatenation_with_separator (V : List Value) :
    Sprint V = renderSpec V ∧
    ((V.Chain' fun a b => isString a = true ∨ isString b = true) →
      Sprint V = (V.map printArg).flatten) ∧
    (NewSyncLog buffer).FilterEmpty.Log [] [Value.str [97], Value.str [98]] = [97, 98, 10] := by
  refine ⟨Sprint_eq_renderSpec V, fun h => ?_, by decide⟩
  rw [Sprint_eq_renderSpec, renderSpec_no_separator V h]

/-! ## C8 -/

theorem Sprint_single (e : Value) : Sprint [e] = printArg e := by
  simp [Sprint, doPrint, doPrintLoop]

/-- C8 as stated fails at `errors.New("")`, a non-nil error the filter
suppresses, and at `errors.New("x\n")`, after which no newline is added. -/
theorem C8_counterexample_empty_error :
    (Value.err [] ≠ Value.nil ∧
      (NewSyncLog buffer).FilterEmpty.Log [] [Value.err []] = [] ∧
      (NewSyncLog buffer).FilterEmpty.Log [] [Value.err []] ≠
        [] ++ printArg (Value.err []) ++ [newline]) ∧
    (Value.err [120, 10] ≠ Value.nil ∧
      (NewSyncLog buffer).FilterEmpty.Log [] [Value.err [120, 10]] = [120, 10] ∧
      (NewSyncLog buffer).FilterEmpty.Log [] [Value.err [120, 10]] ≠
        [] ++ printArg (Value.err [120, 10]) ++ [newline]) := by
  decide

/-- C8, amended: for every non-nil value `e` (an error in particular) whose
rendered text is not empty, `FilterEmpty.Log(e)` is not suppressed and appends
the rendered text of `e`, followed by a newline unless the text already ends
with one; the nil value as single argument writes nothing. -/
theorem C8_filter_logs_nonempty_error (e : Value) (s : Bytes)
    (hnil : e ≠ Value.nil) (htext : printArg e ≠ []) :
    (NewSyncLog buffer).FilterEmpty.Log s [e] ≠ s ∧
    (NewSyncLog buffer).FilterEmpty.Log s [e] =
      s ++ printArg e ++ (if (printArg e).getLast? = some newline then [] else [newline]) ∧
    (NewSyncLog buffer).FilterEmpty.Log s [Value.nil] = s := by
  have hcond : ¬ ([e].length = 0 ∨ [e] = [Value.nil] ∨ Sprint [e] = []) := by
    rw [Sprint_single]
    simp [hnil, htext]
  have hlog : (NewSyncLog buffer).FilterEmpty.Log s [e] = (NewSyncLog buffer).Log s [e] := by
    rw [filterLog_eq, if_neg hcond]
  refine ⟨?_, ?_, ?_⟩
  · rw [hlog]
    exact log_buffer_ne s [e]
  · rw [hlog, log_buffer, Sprint_single]
    by_cases hn : needsNewline (printArg e) = true
    · have h2 : (printArg e).getLast? ≠ some newline := by
        rcases (needsNewline_iff _).1 hn with h1 | h1
        · exact absurd h1 htext
        · exact h1
      rw [if_pos hn, if_neg h2]
    · have h2 := (needsNewline_false_iff _).1 (by simpa using hn)
      rw [if_neg hn, if_pos h2]
  · rw [filterLog_eq]
    simp

/-- Witness of C8 at the error `io.EOF`, whose text is `EOF`. -/
theorem C8_filter_logs_nonempty_error_witness :
    (NewSyncLog buffer).FilterEmpty.Log [] [Value.err [69, 79, 70]] = [69, 79, 70, 10] :=
  (C8_filter_logs_nonempty_error (Value.err [69, 79, 70]) [] (by decide) (by decide)).2.1

/-! ## C9 -/

theorem log_bufferAt (l : SyncLog Sinks) (n : Nat) (hl : l.Writer = bufferAt n)
    (h : Sinks) (v : List Value) :
    l.Log h v = Function.update h n (h n ++ (NewSyncLog buffer).Log [] v) := by
  rw [log_buffer]
  unfold SyncLog.Log
  simp only [Fprint, doPrint_str, hl, bufferAt]
  split <;> simp

theorem exec_bufferAt (l : SyncLog Sinks) (n : Nat) (hl : l.Writer = bufferAt n)
    (h : Sinks) (c : Call) :
    c.exec l h = Function.update h n (h n ++ c.output) := by
  cases c with
  | direct v => exact log_bufferAt l n hl h v
  | filtered v =>
    simp only [Call.exec, Call.output]
    rw [filterLog_eq, filterLog_eq]
    by_cases hc : v.length = 0 ∨ v = [Value.nil] ∨ Sprint v = []
    · rw [if_pos hc, if_pos hc]
      simp
    · rw [if_neg hc, if_neg hc]
      exact log_bufferAt l n hl h v

theorem calls_bufferAt (cs : List Call) (w : World) (n : Nat)
    (hl : w.log.Writer = bufferAt n) :
    (cs.foldl World.call w).sinks =
      Function.update w.sinks n (w.sinks n ++ (cs.map Call.output).flatten) := by
  induction cs generalizing w with
  | nil => simp
  | cons c cs ih =>
    rw [List.foldl_cons, ih (w.call c) hl]
    simp only [World.call]
    rw [exec_bufferAt w.log n hl]
    simp

/-- C9: `SetOutput(newSink)` writes to no sink, and after it every `Log`
call, direct or through the filter, appends its output to `newSink` and leaves
every other sink (the prior one among them) as it was. -/
theorem C9_setOutput_redirects (w : World) (n : Nat) (cs : List Call) :
    (w.SetOutput n).sinks = w.sinks ∧
    (cs.foldl World.call (w.SetOutput n)).sinks n =
      w.sinks n ++ (cs.map Call.output).flatten ∧
    ∀ k : Nat, k ≠ n → (cs.foldl World.call (w.SetOutput n)).sinks k = w.sinks k := by
  have h := calls_bufferAt cs (w.SetOutput n) n rfl
  refine ⟨rfl, ?_, ?_⟩
  · rw [h]
    simp [World.SetOutput]
  · intro k hk
    rw [h]
    simp [World.SetOutput, Function.update_noteq hk]

/-- Witness of C9: the logger wrote to sink 0, is redirected to sink 1, and
three calls later sink 0 is as it was. -/
theorem C9_setOutput_redirects_witness :
    ([Call.direct [Value.str [97]], Call.filtered [Value.nil], Call.filtered [Value.str [98]]].foldl
        World.call ((World.mk (NewSyncLog (bufferAt 0)) (fun _ => [7])).SetOutput 1)).sinks 0
      = [7] :=
  (C9_setOutput_redirects (World.mk (NewSyncLog (bufferAt 0)) (fun _ => [7])) 1
    [Call.direct [Value.str [97]], Call.filtered [Value.nil], Call.filtered [Value.str [98]]]).2.2
    0 (by decide)

/-! ## C5 -/

theorem split_at {α : Type} (l : List α) (i : Nat) (c : α) (h : l[i]? = some c) :
    ∃ l1 l2, l = l1 ++ c :: l2 ∧ i = l1.length ∧ ∀ c1, l.set i c1 = l1 ++ c1 :: l2 := by
  induction l generalizing i with
  | nil => simp at h
  | cons a l ih =>
    cases i with
    | zero =>
      simp at h
      exact ⟨[], l, by simp [h], rfl, fun c1 => by simp⟩
    | succ i =>
      simp at h
      obtain ⟨l1, l2, h1, h2, h3⟩ := ih i h
      exact ⟨a :: l1, l2, by simp [h1], by simp [h2], fun c1 => by simp [h3]⟩

theorem pending_nil_of_not_holds (l : List Caller) (h : l.countP Caller.holds = 0) :
    (l.map Caller.pending).flatten = [] := by
  induction l with
  | nil => rfl
  | cons c l ih =>
    rw [List.countP_cons] at h
    have hc : Caller.holds c = false := by
      cases hh : Caller.holds c
      · rfl
      · simp [hh] at h
    have hl : l.countP Caller.holds = 0 := by omega
    have hp : Caller.pending c = [] := by
      unfold Caller.pending
      split
      · rename_i hpc
        simp [Caller.holds, hpc] at hc
      · rfl
    simp [hp, ih hl]

theorem output_eq (v : List Value) :
    output v = Sprint v ++ (if needsNewline (Sprint v) then [newline] else []) := by
  unfold output
  rw [log_buffer]
  simp

theorem Inv_init (s0 : Bytes) (vs : List (List Value)) : Inv s0 (Conc.init s0 vs) := by
  refine ⟨?_, ?_, [], ?_, ?_⟩
  · intro c hc
    simp only [Conc.init, List.mem_map] at hc
    obtain ⟨v, _, rfl⟩ := hc
    exact Or.inl rfl
  · simp only [Conc.init]
    induction vs with
    | nil => simp
    | cons v vs ih => simp [List.countP_cons, Caller.holds]
  · simp only [Conc.init]
    induction vs with
    | nil => simp
    | cons v vs ih => simp [List.filter_cons, Caller.wrote]
  · simp only [Conc.init]
    induction vs with
    | nil => simp
    | cons v vs ih => simp [Caller.pending]

theorem forall_mem_replace {α : Type} (P : α → Prop) (l1 l2 : List α) (c c1 : α)
    (h : ∀ x ∈ l1 ++ c :: l2, P x) (h1 : P c1) : ∀ x ∈ l1 ++ c1 :: l2, P x := by
  intro x hx
  rcases List.mem_append.1 hx with hx | hx
  · exact h x (List.mem_append_left _ hx)
  · rcases List.mem_cons.1 hx with hx | hx
    · rw [hx]; exact h1
    · exact h x (List.mem_append_right _ (List.mem_cons_of_mem _ hx))

theorem Inv_step (s0 : Bytes) (st st1 : Conc Bytes) (i : Nat)
    (hinv : Inv s0 st) (hstep : step (NewSyncLog buffer) st i = some st1) :
    Inv s0 st1 ∧ st1.callers.map Caller.v = st.callers.map Caller.v := by
  obtain ⟨m, s, cs⟩ := st
  simp only [step] at hstep
  cases hc : cs[i]? with
  | none => simp [hc] at hstep
  | some c =>
    rw [hc] at hstep
    obtain ⟨l1, l2, rfl, -, hset⟩ := split_at cs i c hc
    obtain ⟨hok, hcount, order, hperm, hsink⟩ := hinv
    simp only [List.countP_append, List.countP_cons] at hcount
    simp only [List.filter_append, List.filter_cons, List.map_append] at hperm
    simp only [List.map_append, List.map_cons, List.flatten_append, List.flatten_cons] at hsink
    obtain ⟨v, pc, out⟩ := c
    cases pc with
    | sprint =>
      simp only [stepCaller, Option.some.injEq] at hstep
      subst hstep
      simp only [hset]
      simp only [Caller.holds, Caller.wrote, Caller.pending] at hcount hperm hsink
      refine ⟨⟨forall_mem_replace _ l1 l2 _ _ hok (Or.inr rfl), ?_, order, ?_, ?_⟩, by simp⟩
      · simpa [List.countP_append, List.countP_cons, Caller.holds] using hcount
      · simpa [List.filter_append, List.filter_cons, Caller.wrote] using hperm
      · simpa [Caller.pending] using hsink
    | lock =>
      cases m with
      | true => simp [stepCaller] at hstep
      | false =>
        simp [stepCaller] at hstep
        subst hstep
        simp only [hset]
        have hok1 := hok ⟨v, .lock, out⟩ (by simp)
        have hh : Caller.holds ⟨v, .lock, out⟩ = false := rfl
        have hh1 : Caller.holds ⟨v, .fprint, out⟩ = true := rfl
        simp only [Caller.wrote, Caller.pending] at hperm hsink
        refine ⟨⟨forall_mem_replace _ l1 l2 _ _ hok (by simpa using hok1), ?_, order, ?_, ?_⟩,
          by simp⟩
        · rw [hh] at hcount
          simp only [List.countP_append, List.countP_cons, hh1]
          simp only [↓reduceIte, Bool.false_eq_true] at hcount ⊢
          omega
        · simpa [List.filter_append, List.filter_cons, Caller.wrote] using hperm
        · simpa [Caller.pending] using hsink
    | fprint =>
      simp only [stepCaller, Option.some.injEq] at hstep
      subst hstep
      simp only [hset]
      have hok1 := hok ⟨v, .fprint, out⟩ (by simp)
      have hc1 : l1.countP Caller.holds = 0 ∧ l2.countP Caller.holds = 0 := by
        simp [Caller.holds] at hcount
        split at hcount <;> omega
      have hp1 := pending_nil_of_not_holds l1 hc1.1
      have hp2 := pending_nil_of_not_holds l2 hc1.2
      simp only [Caller.holds, Caller.wrote, Caller.pending] at hcount hperm hsink
      refine ⟨⟨forall_mem_replace _ l1 l2 _ _ hok (by simpa using hok1), ?_, order, ?_, ?_⟩,
        by simp⟩
      · simpa [List.countP_append, List.countP_cons, Caller.holds] using hcount
      · simpa [List.filter_append, List.filter_cons, Caller.wrote] using hperm
      · simp [Caller.pending, hp1, hp2, Fprint, doPrint_str, NewSyncLog, buffer] at hsink ⊢
        rw [hsink]
        simp
    | terminate =>
      simp only [stepCaller, Option.some.injEq] at hstep
      subst hstep
      simp only [hset]
      have hok1 := hok ⟨v, .terminate, out⟩ (by simp)
      simp at hok1
      subst hok1
      have hc1 : l1.countP Caller.holds = 0 ∧ l2.countP Caller.holds = 0 := by
        simp [Caller.holds] at hcount
        split at hcount <;> omega
      have hp1 := pending_nil_of_not_holds l1 hc1.1
      have hp2 := pending_nil_of_not_holds l2 hc1.2
      simp only [Caller.holds, Caller.wrote, Caller.pending] at hcount hperm hsink
      refine ⟨⟨forall_mem_replace _ l1 l2 _ _ hok (Or.inr rfl), ?_, order ++ [v], ?_, ?_⟩,
        by simp⟩
      · simpa [List.countP_append, List.countP_cons, Caller.holds] using hcount
      · simp [List.filter_append, List.filter_cons, Caller.wrote] at hperm ⊢
        exact (List.perm_append_singleton v order).trans
          ((List.Perm.cons v hperm).trans List.perm_middle.symm)
      · simp [Caller.pending, hp1, hp2] at hsink ⊢
        rw [hsink, output_eq]
        simp only [NewSyncLog, buffer]
        split <;> simp
    | unlock =>
      simp only [stepCaller, Option.some.injEq] at hstep
      subst hstep
      simp only [hset]
      have hok1 := hok ⟨v, .unlock, out⟩ (by simp)
      have hh : Caller.holds ⟨v, .unlock, out⟩ = true := rfl
      have hh1 : Caller.holds ⟨v, .done, out⟩ = false := rfl
      simp only [Caller.wrote, Caller.pending] at hperm hsink
      refine ⟨⟨forall_mem_replace _ l1 l2 _ _ hok (by simpa using hok1), ?_, order, ?_, ?_⟩,
        by simp⟩
      · rw [hh] at hcount
        simp only [List.countP_append, List.countP_cons, hh1]
        cases m <;> simp only [↓reduceIte, Bool.false_eq_true] at hcount ⊢ <;> omega
      · simpa [List.filter_append, List.filter_cons, Caller.wrote] using hperm
      · simpa [Caller.pending] using hsink
    | done => simp [stepCaller] at hstep

theorem Inv_run (s0 : Bytes) (sched : List Nat) (st st1 : Conc Bytes)
    (hinv : Inv s0 st) (hrun : run (NewSyncLog buffer) st sched = some st1) :
    Inv s0 st1 ∧ st1.callers.map Caller.v = st.callers.map Caller.v := by
  induction sched generalizing st with
  | nil =>
    simp only [run, Option.some.injEq] at hrun
    subst hrun
    exact ⟨hinv, rfl⟩
  | cons i sched ih =>
    simp only [run] at hrun
    cases hs : step (NewSyncLog buffer) st i with
    | none => simp [hs] at hrun
    | some st2 =>
      rw [hs] at hrun
      obtain ⟨h1, h2⟩ := Inv_step s0 st st2 i hinv hs
      obtain ⟨h3, h4⟩ := ih st2 h1 hrun
      exact ⟨h3, h4.trans h2⟩

theorem finished_all_done {σ : Type} (st : Conc σ) (hfin : st.finished = true) :
    ∀ c ∈ st.callers, c.pc = PC.done := by
  intro c hc
  simp only [Conc.finished, List.all_eq_true] at hfin
  simpa using hfin c hc

theorem finished_sink (s0 : Bytes) (st : Conc Bytes) (hinv : Inv s0 st)
    (hfin : st.finished = true) :
    ∃ order : List (List Value), order.Perm (st.callers.map Caller.v) ∧
      st.sink = s0 ++ (order.map output).flatten := by
  have hdone := finished_all_done st hfin
  obtain ⟨-, -, order, hperm, hsink⟩ := hinv
  have hw : st.callers.filter Caller.wrote = st.callers := by
    rw [List.filter_eq_self]
    intro c hc
    simp [Caller.wrote, hdone c hc]
  have hp : st.callers.countP Caller.holds = 0 := by
    rw [List.countP_eq_zero]
    intro c hc
    simp [Caller.holds, hdone c hc]
  rw [hw] at hperm
  rw [pending_nil_of_not_holds _ hp, List.append_nil] at hsink
  exact ⟨order, hperm, hsink⟩

theorem getElem?_mid {α : Type} (l1 l2 : List α) (c : α) :
    (l1 ++ c :: l2)[l1.length]? = some c := by
  induction l1 with
  | nil => simp
  | cons a l1 ih => simpa using ih

theorem set_mid {α : Type} (l1 l2 : List α) (c c1 : α) :
    (l1 ++ c :: l2).set l1.length c1 = l1 ++ c1 :: l2 := by
  induction l1 with
  | nil => simp
  | cons a l1 ih => simp

theorem step_mid {σ : Type} (l : SyncLog σ) (m : Bool) (s : σ) (l1 l2 : List Caller)
    (c : Caller) :
    step l ⟨m, s, l1 ++ c :: l2⟩ l1.length =
      (stepCaller l m s c).map fun r => ⟨r.1, r.2.1, l1 ++ r.2.2 :: l2⟩ := by
  simp only [step, getElem?_mid, set_mid]
  cases stepCaller l m s c <;> rfl

/-- One caller that runs its five statements without interruption has the
effect of the method `SyncLog.Log` on the sink, and leaves the mutex free. -/
theorem run_caller_alone {σ : Type} (l : SyncLog σ) (l1 l2 : List Caller) (s : σ)
    (v : List Value) (out0 : Bytes) :
    run l ⟨false, s, l1 ++ ⟨v, .sprint, out0⟩ :: l2⟩
        [l1.length, l1.length, l1.length, l1.length, l1.length] =
      some ⟨false, l.Log s v, l1 ++ ⟨v, .done, Sprint v⟩ :: l2⟩ := by
  simp only [run, step_mid, stepCaller, Option.map_some', Option.some_bind, Bool.false_eq_true,
    ↓reduceIte, SyncLog.Log]

theorem run_append {σ : Type} (l : SyncLog σ) (a b : List Nat) (st : Conc σ) :
    run l st (a ++ b) = (run l st a).bind fun st1 => run l st1 b := by
  induction a generalizing st with
  | nil => simp [run]
  | cons i a ih =>
    simp only [List.cons_append, run]
    cases step l st i with
    | none => simp
    | some st2 => simpa using ih st2

theorem run_sequential {σ : Type} (l : SyncLog σ) (vs : List (List Value))
    (l1 : List Caller) (s : σ) (h1 : ∀ c ∈ l1, c.pc = PC.done) :
    ∃ st, run l ⟨false, s, l1 ++ vs.map fun v => ⟨v, .sprint, []⟩⟩
        (sequentialSchedule l1.length vs.length) = some st ∧ st.finished = true := by
  induction vs generalizing l1 s with
  | nil =>
    refine ⟨⟨false, s, l1⟩, by simp [sequentialSchedule, run], ?_⟩
    simp only [Conc.finished, List.all_eq_true]
    intro c hc
    simp [h1 c hc]
  | cons v vs ih =>
    have h2 : ∀ c ∈ l1 ++ [⟨v, .done, Sprint v⟩], c.pc = PC.done := by
      intro c hc
      rcases List.mem_append.1 hc with hc | hc
      · exact h1 c hc
      · simp at hc
        rw [hc]
    obtain ⟨st, hst, hfin⟩ := ih (l1 ++ [⟨v, .done, Sprint v⟩]) (l.Log s v) h2
    refine ⟨st, ?_, hfin⟩
    simp only [List.map_cons, List.length_cons, sequentialSchedule]
    rw [run_append, run_caller_alone]
    simpa using hst

theorem step_progress {σ : Type} (l : SyncLog σ) (st st1 : Conc σ) (i : Nat)
    (hstep : step l st i = some st1) :
    st1.progress = st.progress + 1 ∧ st1.callers.length = st.callers.length := by
  obtain ⟨m, s, cs⟩ := st
  simp only [step] at hstep
  cases hc : cs[i]? with
  | none => simp [hc] at hstep
  | some c =>
    rw [hc] at hstep
    obtain ⟨l1, l2, rfl, -, hset⟩ := split_at cs i c hc
    obtain ⟨v, pc, out⟩ := c
    cases pc <;> cases m <;> simp [stepCaller] at hstep <;> subst hstep <;>
      simp [hset, Conc.progress, PC.rank] <;> omega

theorem run_progress {σ : Type} (l : SyncLog σ) (sched : List Nat) (st st1 : Conc σ)
    (hrun : run l st sched = some st1) :
    st1.progress = st.progress + sched.length ∧ st1.callers.length = st.callers.length := by
  induction sched generalizing st with
  | nil =>
    simp only [run, Option.some.injEq] at hrun
    subst hrun
    simp
  | cons i sched ih =>
    simp only [run] at hrun
    cases hs : step l st i with
    | none => simp [hs] at hrun
    | some st2 =>
      rw [hs] at hrun
      obtain ⟨h1, h2⟩ := step_progress l st st2 i hs
      obtain ⟨h3, h4⟩ := ih st2 hrun
      refine ⟨?_, h4.trans h2⟩
      rw [h3, h1, List.length_cons]
      omega

theorem progress_le {σ : Type} (st : Conc σ) : st.progress ≤ 5 * st.callers.length := by
  obtain ⟨m, s, cs⟩ := st
  simp only [Conc.progress]
  induction cs with
  | nil => simp
  | cons c cs ih =>
    have hc : c.pc.rank ≤ 5 := by cases c.pc <;> simp [PC.rank]
    simp only [List.map_cons, List.sum_cons, List.length_cons]
    omega

theorem progress_init {σ : Type} (s : σ) (vs : List (List Value)) :
    (Conc.init s vs).progress = 0 ∧ (Conc.init s vs).callers.length = vs.length := by
  simp only [Conc.init, Conc.progress, List.length_map, and_true]
  induction vs with
  | nil => rfl
  | cons v vs ih => simpa [PC.rank] using ih

theorem exists_holder (l : List Caller) (h : l.countP Caller.holds = 1) :
    ∃ l1 c l2, l = l1 ++ c :: l2 ∧ Caller.holds c = true := by
  by_contra hno
  have h0 : l.countP Caller.holds = 0 := by
    rw [List.countP_eq_zero]
    intro c hc hh
    obtain ⟨l1, l2, h1⟩ := List.append_of_mem hc
    exact hno ⟨l1, c, l2, h1, hh⟩
  omega

theorem exists_not_done {σ : Type} (st : Conc σ) (h : st.finished = false) :
    ∃ l1 c l2, st.callers = l1 ++ c :: l2 ∧ c.pc ≠ PC.done := by
  by_contra hno
  have h1 : st.finished = true := by
    simp only [Conc.finished, List.all_eq_true]
    intro c hc
    obtain ⟨l1, l2, h2⟩ := List.append_of_mem hc
    by_contra h3
    exact hno ⟨l1, c, l2, h2, fun h4 => h3 (by simp [h4])⟩
  rw [h1] at h
  exact Bool.noConfusion h

/-- No deadlock: while some caller has not returned, some caller can execute
its next statement. -/
theorem exists_enabled {σ : Type} (l : SyncLog σ) (st : Conc σ)
    (hcount : st.callers.countP Caller.holds = if st.mutex then 1 else 0)
    (hnf : st.finished = false) : ∃ i, (step l st i).isSome = true := by
  obtain ⟨m, s, cs⟩ := st
  cases m with
  | true =>
    obtain ⟨l1, c, l2, h1, h2⟩ := exists_holder cs (by simpa using hcount)
    subst h1
    refine ⟨l1.length, ?_⟩
    rw [step_mid]
    obtain ⟨v, pc, out⟩ := c
    cases pc <;> simp [Caller.holds] at h2 <;> simp [stepCaller]
  | false =>
    obtain ⟨l1, c, l2, h1, h2⟩ := exists_not_done ⟨false, s, cs⟩ hnf
    replace h1 : cs = l1 ++ c :: l2 := h1
    subst h1
    have h0 : (l1 ++ c :: l2).countP Caller.holds = 0 := by simpa using hcount
    rw [List.countP_eq_zero] at h0
    have h3 := h0 c (by simp)
    refine ⟨l1.length, ?_⟩
    rw [step_mid]
    obtain ⟨v, pc, out⟩ := c
    cases pc <;> simp [Caller.holds] at h2 h3 <;> simp [stepCaller]

theorem map_v_init {σ : Type} (s : σ) (vs : List (List Value)) :
    (Conc.init s vs).callers.map Caller.v = vs := by
  simp only [Conc.init, List.map_map]
  induction vs with
  | nil => rfl
  | cons v vs ih => simpa using ih

/-- C5: for every number of concurrent callers of `Log` on one `SyncLog`,
whatever the schedule, once all callers have returned the sink holds its
initial content followed by the complete outputs of the calls (rendered text
plus terminator), in some order: the writes of one call are never interleaved
with those of another.  Such complete runs exist, no run has more than five
steps per caller, and no reachable state is a deadlock. -/
theorem C5_concurrent_calls_not_interleaved (vs : List (List Value)) (s0 : Bytes) :
    (∃ sched st, run (NewSyncLog buffer) (Conc.init s0 vs) sched = some st ∧
      st.finished = true) ∧
    ∀ (sched : List Nat) (st : Conc Bytes),
      run (NewSyncLog buffer) (Conc.init s0 vs) sched = some st →
        sched.length ≤ 5 * vs.length ∧
        (st.finished = false → ∃ i, (step (NewSyncLog buffer) st i).isSome = true) ∧
        (st.finished = true →
          ∃ order : List (List Value), order.Perm vs ∧
            st.sink = s0 ++ (order.map fun v => (NewSyncLog buffer).Log [] v).flatten) := by
  constructor
  · obtain ⟨st, h1, h2⟩ := run_sequential (NewSyncLog buffer) vs [] s0 (by simp)
    exact ⟨sequentialSchedule 0 vs.length, st, by simpa [Conc.init] using h1, h2⟩
  · intro sched st hrun
    obtain ⟨hinv, hv⟩ := Inv_run s0 sched _ st (Inv_init s0 vs) hrun
    obtain ⟨hp, hlen⟩ := run_progress _ sched _ st hrun
    rw [map_v_init] at hv
    refine ⟨?_, ?_, ?_⟩
    · have h1 := progress_le st
      have h2 := progress_init s0 vs
      rw [hp, hlen, h2.1, h2.2] at h1
      omega
    · exact exists_enabled _ st hinv.2.1
    · intro hfin
      obtain ⟨order, h1, h2⟩ := finished_sink s0 st hinv hfin
      rw [hv] at h1
      exact ⟨order, h1, h2⟩

/-- Witness of C5: three callers `Log("a")`, `Log("b\n")`, `Log(1, 2)` under an
interleaved schedule; the sink ends as `b\n1 2\na\n`. -/
theorem C5_concurrent_calls_not_interleaved_witness :
    ∃ order : List (List Value),
      order.Perm [[Value.str [97]], [Value.str [98, 10]], [Value.int 1, Value.int 2]] ∧
      [98, 10, 49, 32, 50, 10, 97, 10] =
        [] ++ (order.map fun v => (NewSyncLog buffer).Log [] v).flatten :=
  ((C5_concurrent_calls_not_interleaved
      [[Value.str [97]], [Value.str [98, 10]], [Value.int 1, Value.int 2]] []).2
    [1, 0, 1, 2, 1, 1, 1, 2, 2, 2, 2, 0, 0, 0, 0]
    ⟨false, [98, 10, 49, 32, 50, 10, 97, 10],
      [⟨[Value.str [97]], .done, [97]⟩, ⟨[Value.str [98, 10]], .done, [98, 10]⟩,
        ⟨[Value.int 1, Value.int 2], .done, [49, 32, 50]⟩]⟩
    (by decide)).2.2 (by decide)

/-! ## C6 -/

theorem not_holds_of_countP (l : List Caller) (h : l.countP Caller.holds = 0) :
    l.filter Caller.holds = [] ∧ (l.map Caller.written).flatten = [] := by
  induction l with
  | nil => exact ⟨rfl, rfl⟩
  | cons c l ih =>
    rw [List.countP_cons] at h
    have hc : Caller.holds c = false := by
      cases hh : Caller.holds c
      · rfl
      · simp [hh] at h
    have hl : l.countP Caller.holds = 0 := by omega
    have hw : Caller.written c = [] := by
      obtain ⟨v, pc, out⟩ := c
      cases pc <;> simp [Caller.holds] at hc <;> rfl
    obtain ⟨h1, h2⟩ := ih hl
    exact ⟨by simp [List.filter_cons, hc, h1], by simp [hw, h2]⟩

theorem Ord_step (s0 : Bytes) (acq : List (List Value)) (st st1 : Conc Bytes) (i : Nat)
    (hinv : Inv s0 st) (hord : Ord s0 acq st)
    (hstep : step (NewSyncLog buffer) st i = some st1) :
    Ord s0 (acq ++ lockStep st i) st1 := by
  obtain ⟨m, s, cs⟩ := st
  simp only [step] at hstep
  simp only [lockStep]
  cases hc : cs[i]? with
  | none => simp [hc] at hstep
  | some c =>
    rw [hc] at hstep
    obtain ⟨l1, l2, rfl, -, hset⟩ := split_at cs i c hc
    obtain ⟨hok, hcount, -⟩ := hinv
    obtain ⟨acq0, hacq, hsink⟩ := hord
    simp only [List.countP_append, List.countP_cons] at hcount
    simp only [List.filter_append, List.filter_cons, List.map_append] at hacq
    simp only [List.map_append, List.map_cons, List.flatten_append, List.flatten_cons] at hsink
    obtain ⟨v, pc, out⟩ := c
    cases pc with
    | sprint =>
      simp only [stepCaller, Option.some.injEq] at hstep
      subst hstep
      simp only [hset]
      refine ⟨acq0, ?_, ?_⟩
      · simpa [List.filter_append, List.filter_cons, Caller.holds] using hacq
      · simpa [Caller.written] using hsink
    | lock =>
      cases m with
      | true => simp [stepCaller] at hstep
      | false =>
        simp [stepCaller] at hstep
        subst hstep
        simp only [hset]
        have hh : Caller.holds ⟨v, .lock, out⟩ = false := rfl
        rw [hh] at hcount
        simp only [↓reduceIte, Bool.false_eq_true] at hcount
        obtain ⟨hf1, hw1⟩ := not_holds_of_countP l1 (by omega)
        obtain ⟨hf2, hw2⟩ := not_holds_of_countP l2 (by omega)
        refine ⟨acq0, ?_, ?_⟩
        · simp [List.filter_append, List.filter_cons, Caller.holds, hf1, hf2] at hacq ⊢
          exact hacq
        · simpa [Caller.written] using hsink
    | fprint =>
      simp only [stepCaller, Option.some.injEq] at hstep
      subst hstep
      simp only [hset]
      have hc1 : l1.countP Caller.holds = 0 ∧ l2.countP Caller.holds = 0 := by
        simp [Caller.holds] at hcount
        split at hcount <;> omega
      obtain ⟨hf1, hw1⟩ := not_holds_of_countP l1 hc1.1
      obtain ⟨hf2, hw2⟩ := not_holds_of_countP l2 hc1.2
      refine ⟨acq0, ?_, ?_⟩
      · simpa [List.filter_append, List.filter_cons, Caller.holds] using hacq
      · simp [Caller.written, hw1, hw2, Fprint, doPrint_str, NewSyncLog, buffer] at hsink ⊢
        rw [hsink]
        simp
    | terminate =>
      simp only [stepCaller, Option.some.injEq] at hstep
      subst hstep
      simp only [hset]
      have hok1 := hok ⟨v, .terminate, out⟩ (by simp)
      simp at hok1
      subst hok1
      have hc1 : l1.countP Caller.holds = 0 ∧ l2.countP Caller.holds = 0 := by
        simp [Caller.holds] at hcount
        split at hcount <;> omega
      obtain ⟨hf1, hw1⟩ := not_holds_of_countP l1 hc1.1
      obtain ⟨hf2, hw2⟩ := not_holds_of_countP l2 hc1.2
      refine ⟨acq0, ?_, ?_⟩
      · simpa [List.filter_append, List.filter_cons, Caller.holds] using hacq
      · simp [Caller.written, hw1, hw2] at hsink ⊢
        rw [hsink, output_eq]
        simp only [NewSyncLog, buffer]
        split <;> simp
    | unlock =>
      simp only [stepCaller, Option.some.injEq] at hstep
      subst hstep
      simp only [hset]
      have hc1 : l1.countP Caller.holds = 0 ∧ l2.countP Caller.holds = 0 := by
        simp [Caller.holds] at hcount
        split at hcount <;> omega
      obtain ⟨hf1, hw1⟩ := not_holds_of_countP l1 hc1.1
      obtain ⟨hf2, hw2⟩ := not_holds_of_countP l2 hc1.2
      refine ⟨acq0 ++ [v], ?_, ?_⟩
      · simp [List.filter_append, List.filter_cons, Caller.holds, hf1, hf2] at hacq ⊢
        exact hacq
      · simp [Caller.written, hw1, hw2] at hsink ⊢
        rw [hsink]
    | done => simp [stepCaller] at hstep

theorem Ord_run (s0 : Bytes) (sched : List Nat) (acq : List (List Value))
    (st st1 : Conc Bytes) (hinv : Inv s0 st) (hord : Ord s0 acq st)
    (hrun : run (NewSyncLog buffer) st sched = some st1) :
    Ord s0 (acq ++ lockOrder (NewSyncLog buffer) st sched) st1 := by
  induction sched generalizing st acq with
  | nil =>
    simp only [run, Option.some.injEq] at hrun
    subst hrun
    simpa [lockOrder] using hord
  | cons i sched ih =>
    simp only [run] at hrun
    cases hs : step (NewSyncLog buffer) st i with
    | none => simp [hs] at hrun
    | some st2 =>
      rw [hs] at hrun
      have h1 := (Inv_step s0 st st2 i hinv hs).1
      have h2 := Ord_step s0 acq st st2 i hinv hord hs
      have h3 := ih (acq ++ lockStep st i) st2 h1 h2 hrun
      simpa [lockOrder, hs] using h3

theorem Ord_init (s0 : Bytes) (vs : List (List Value)) : Ord s0 [] (Conc.init s0 vs) := by
  have h : (Conc.init s0 vs).callers.countP Caller.holds = 0 := (Inv_init s0 vs).2.1
  obtain ⟨h1, h2⟩ := not_holds_of_countP _ h
  refine ⟨[], ?_, ?_⟩
  · rw [h1]
    rfl
  · rw [h2]
    simp [Conc.init]

theorem Ord_finished (s0 : Bytes) (acq : List (List Value)) (st : Conc Bytes)
    (hord : Ord s0 acq st) (hfin : st.finished = true) :
    st.sink = s0 ++ (acq.map output).flatten := by
  have hdone := finished_all_done st hfin
  have hp : st.callers.countP Caller.holds = 0 := by
    rw [List.countP_eq_zero]
    intro c hc
    simp [Caller.holds, hdone c hc]
  obtain ⟨h1, h2⟩ := not_holds_of_countP _ hp
  obtain ⟨acq0, hacq, hsink⟩ := hord
  rw [h1, List.map_nil, List.append_nil] at hacq
  rw [h2, List.append_nil, ← hacq] at hsink
  exact hsink

/-- C6: calls executed one after another leave the sink holding its initial
content followed by the outputs of the calls, in the same order, each output
being what the call produces on its own, whatever the sink held before; and
in a run of concurrent callers that order is the order in which the callers
acquire the mutex. -/
theorem C6_sequential_calls_concatenate (vs : List (List Value)) (s0 : Bytes) :
    vs.foldl (fun s v => (NewSyncLog buffer).Log s v) s0 =
      s0 ++ (vs.map fun v => (NewSyncLog buffer).Log [] v).flatten ∧
    (∀ (s : Bytes) (v : List Value),
      (NewSyncLog buffer).Log s v = s ++ (NewSyncLog buffer).Log [] v) ∧
    ∀ (sched : List Nat) (st : Conc Bytes),
      run (NewSyncLog buffer) (Conc.init s0 vs) sched = some st → st.finished = true →
      st.sink = s0 ++
        ((lockOrder (NewSyncLog buffer) (Conc.init s0 vs) sched).map
          fun v => (NewSyncLog buffer).Log [] v).flatten := by
  have hframe : ∀ (s : Bytes) (v : List Value),
      (NewSyncLog buffer).Log s v = s ++ (NewSyncLog buffer).Log [] v := by
    intro s v
    rw [log_buffer, log_buffer]
    simp
  refine ⟨?_, hframe, ?_⟩
  · induction vs generalizing s0 with
    | nil => simp
    | cons v vs ih =>
      rw [List.foldl_cons, ih, hframe s0 v]
      simp
  · intro sched st hrun hfin
    have h := Ord_run s0 sched [] _ st (Inv_init s0 vs) (Ord_init s0 vs) hrun
    rw [List.nil_append] at h
    exact Ord_finished s0 _ st h hfin

/-- Witness of C6: three concurrent callers `Log("a")`, `Log("b\n")`,
`Log(1, 2)`; the second acquires the mutex first, then the third, then the first. -/
theorem C6_sequential_calls_concatenate_witness :
    lockOrder (NewSyncLog buffer)
        (Conc.init [] [[Value.str [97]], [Value.str [98, 10]], [Value.int 1, Value.int 2]])
        [1, 0, 1, 2, 1, 1, 1, 2, 2, 2, 2, 0, 0, 0, 0] =
      [[Value.str [98, 10]], [Value.int 1, Value.int 2], [Value.str [97]]] ∧
    [98, 10, 49, 32, 50, 10, 97, 10] = [] ++
      ((lockOrder (NewSyncLog buffer)
        (Conc.init [] [[Value.str [97]], [Value.str [98, 10]], [Value.int 1, Value.int 2]])
        [1, 0, 1, 2, 1, 1, 1, 2, 2, 2, 2, 0, 0, 0, 0]).map
          fun v => (NewSyncLog buffer).Log [] v).flatten :=
  ⟨by decide,
    (C6_sequential_calls_concatenate
      [[Value.str [97]], [Value.str [98, 10]], [Value.int 1, Value.int 2]] []).2.2
    [1, 0, 1, 2, 1, 1, 1, 2, 2, 2, 2, 0, 0, 0, 0]
    ⟨false, [98, 10, 49, 32, 50, 10, 97, 10],
      [⟨[Value.str [97]], .done, [97]⟩, ⟨[Value.str [98, 10]], .done, [98, 10]⟩,
        ⟨[Value.int 1, Value.int 2], .done, [49, 32, 50]⟩]⟩
    (by decide) (by decide)⟩

end Log
